import Mathlib

/-!
Verification development for the preprocessor core of an SV-family HDL
parser toolchain (crate sv-parser-pp, file src/preprocess.rs).

The embedding translates the Rust source into Lean:

* `Range`, the interval-map ordering and the point lookup are modelled from
  the spec (the file range.rs is not part of the provided sources).
* `PreprocessedText` with `push`, `merge`, `origin` follows
  src/sv-parser-pp/src/preprocess.rs.
* The directive tree, its Enter/Leave event stream (provided in the source
  by the external syntax-tree crate) and the file system are modelled from
  the spec's collaborator contracts.
* The driver `preprocess` is translated arm by arm from the event loop in
  src/sv-parser-pp/src/preprocess.rs.  Rust panics (Option::unwrap on
  None, out-of-bounds slicing) are modelled as a distinct `panicked`
  outcome, and the unbounded include recursion is given explicit fuel,
  with exhaustion modelled as a distinct `overflow` outcome (the Rust
  program would abort the process / overflow the stack in those cases).

Machine strings are modelled at character granularity (`List Char`); all
offsets and lengths are `Nat`.
-/

/-- Modelled from the spec: half-open byte range `{begin, end}` with
`begin ≤ end` intended (file range.rs is not among the provided sources).
The field `end` is a Lean keyword, so it is named `endp`. -/
structure Range where
  begin : Nat
  endp : Nat
deriving DecidableEq, Repr

/-- Modelled from the spec: `offset(n)` shifts both endpoints by `n`. -/
def Range.offset (r : Range) (n : Nat) : Range :=
  ⟨r.begin + n, r.endp + n⟩

/-- Modelled from the spec: `contains(p)` iff `begin ≤ p < end`. -/
def Range.containsPos (r : Range) (p : Nat) : Bool :=
  decide (r.begin ≤ p) && decide (p < r.endp)

/-- Modelled from the spec: two ranges compare by `begin` then `end`;
the interval map uses this order. -/
def rangeLt (a b : Range) : Bool :=
  decide (a.begin < b.begin) || (decide (a.begin = b.begin) && decide (a.endp < b.endp))

/-- An origin record: the output range `range` came from file
`origin_path` at `origin_range` in that file (struct Origin). -/
structure Origin where
  range : Range
  origin_path : String
  origin_range : Range
deriving DecidableEq, Repr

/-- Modelled from the spec: ordered-map insertion for the interval map
(the source uses a BTreeMap keyed by Range); keys are kept in ascending
order and an equal key is replaced. -/
def insertOrigin : List (Range × Origin) → Range → Origin → List (Range × Origin)
  | [], k, v => [(k, v)]
  | (k', v') :: rest, k, v =>
    if rangeLt k k' then (k, v) :: (k', v') :: rest
    else if k = k' then (k, v) :: rest
    else (k', v') :: insertOrigin rest k v

/-- struct PreprocessedText: the flattened text plus the interval map of
origins. -/
structure PreprocessedText where
  text : List Char
  origins : List (Range × Origin)
deriving DecidableEq, Repr

/-- PreprocessedText::new. -/
def PreprocessedText.new : PreprocessedText :=
  ⟨[], []⟩

/-- PreprocessedText::push: append `s` at `base = text.len()` and record
the origin `{range = [base, base+|s|), origin_path, origin_range}`. -/
def PreprocessedText.push (pt : PreprocessedText) (s : List Char)
    (origin_path : String) (origin_range : Range) : PreprocessedText :=
  let base := pt.text.length
  let range : Range := ⟨base, base + s.length⟩
  { text := pt.text ++ s,
    origins := insertOrigin pt.origins range ⟨range, origin_path, origin_range⟩ }

/-- PreprocessedText::merge: append `other.text` and rebase each of its
origin records by `base = text.len()`. -/
def PreprocessedText.merge (pt other : PreprocessedText) : PreprocessedText :=
  let base := pt.text.length
  { text := pt.text ++ other.text,
    origins := other.origins.foldl
      (fun m kv => insertOrigin m (kv.1.offset base)
        { kv.2 with range := kv.2.range.offset base }) pt.origins }

/-- Modelled from the spec: the interval-map point lookup
`get_containing(pos)` returns the unique record whose key range contains
`pos` (in the source, `origins.get(&Range::new(pos, pos + 1))` with the
Ord of the missing range.rs). -/
def getContaining (l : List (Range × Origin)) (pos : Nat) : Option Origin :=
  match l.find? (fun kv => kv.1.containsPos pos) with
  | some kv => some kv.2
  | none => none

/-- PreprocessedText::origin: find the containing record and return
`(origin_path, pos - range.begin + origin_range.begin)`. -/
def PreprocessedText.origin (pt : PreprocessedText) (pos : Nat) :
    Option (String × Nat) :=
  match getContaining pt.origins pos with
  | some o => some (o.origin_path, pos - o.range.begin + o.origin_range.begin)
  | none => none

/-- Error kinds.  `io`/`parse` follow the spec's §7 (the sv-parser-error
crate is not among the provided sources, so the I/O error is modelled from
the spec as carrying the offending path).  `panicked` models a Rust panic
(Option::unwrap on None, out-of-bounds slice) and `overflow` models
exhaustion of the recursion fuel (the source recurses unboundedly on
includes). -/
inductive PPError where
  | io (path : String)
  | parse
  | panicked
  | overflow
deriving DecidableEq, Repr

/-- An include spec: DoubleQuote or AngleBracket literal, carrying the
literal text of the filename including its delimiters. -/
inductive IncludeSpec where
  | doubleQuote (lit : String)
  | angleBracket (lit : String)
deriving DecidableEq, Repr

mutual
/-- The directive-tree node variants of the spec's §3.  Each node carries
a numeric handle `nid`; the spec's adapter contract says node handles
compare by identity, which the embedding realises by these handles.
Where the source extracts an identifier from a name subtree via
`identifier(...)` (an Option), the node carries the extraction result
directly as an `Option String`. -/
inductive PPNode where
  | resetall (nid : Nat)
  | undefine (nid : Nat) (name : Option String)
  | undefineall (nid : Nat)
  | sourceText (nid : Nat) (off len : Nat)
  | body (nid : Nat) (children : PPNodes)
  | ifdefD (nid : Nat) (ifid : Option String) (ifbody : PPNode)
      (elsifs : Elsifs) (elsebody : ElseBody)
  | ifndefD (nid : Nat) (ifid : Option String) (ifbody : PPNode)
      (elsifs : Elsifs) (elsebody : ElseBody)
  | macroDef (nid : Nat) (name : Option String)
  | includeD (nid : Nat) (spec : IncludeSpec)
/-- A document-ordered list of directive-tree nodes. -/
inductive PPNodes where
  | nil
  | cons (n : PPNode) (ns : PPNodes)
/-- The elsif clauses of an ifdef/ifndef directive, in order; each carries
the extracted identifier of its test and its body node. -/
inductive Elsifs where
  | nil
  | cons (eid : Option String) (ebody : PPNode) (rest : Elsifs)
/-- The optional else body of an ifdef/ifndef directive. -/
inductive ElseBody where
  | noElse
  | withElse (b : PPNode)
end

/-- The node handle used for `skip_nodes` membership. -/
def PPNode.nid : PPNode → Nat
  | .resetall i => i
  | .undefine i _ => i
  | .undefineall i => i
  | .sourceText i _ _ => i
  | .body i _ => i
  | .ifdefD i _ _ _ _ => i
  | .ifndefD i _ _ _ _ => i
  | .macroDef i _ => i
  | .includeD i _ => i

/-- NodeEvent: the adapter yields Enter/Leave events in document order. -/
inductive Event where
  | enter (n : PPNode)
  | leave (n : PPNode)

mutual
/-- Modelled from the spec: the directive-tree adapter yields
`Enter(node)` / `Leave(node)` events in document order (in the source,
`pp_text.into_iter().event()` from the external syntax-tree crate).
Subtrees that can contain no directive or body node (identifier leaves,
symbols, keywords) are omitted: their events only reach the no-op
catch-all arms of the loop. -/
def PPNode.events : PPNode → List Event
  | .body i cs => .enter (.body i cs) :: (PPNodes.events cs ++ [.leave (.body i cs)])
  | .ifdefD i iid ib els eb =>
      .enter (.ifdefD i iid ib els eb) ::
        (PPNode.events ib ++ Elsifs.events els ++ ElseBody.events eb ++
          [.leave (.ifdefD i iid ib els eb)])
  | .ifndefD i iid ib els eb =>
      .enter (.ifndefD i iid ib els eb) ::
        (PPNode.events ib ++ Elsifs.events els ++ ElseBody.events eb ++
          [.leave (.ifndefD i iid ib els eb)])
  | n => [.enter n, .leave n]
/-- Events of a node list, in order. -/
def PPNodes.events : PPNodes → List Event
  | .nil => []
  | .cons n ns => PPNode.events n ++ PPNodes.events ns
/-- Events of the elsif clauses (their body subtrees), in order. -/
def Elsifs.events : Elsifs → List Event
  | .nil => []
  | .cons _ b rest => PPNode.events b ++ Elsifs.events rest
/-- Events of an optional else body. -/
def ElseBody.events : ElseBody → List Event
  | .noElse => []
  | .withElse b => PPNode.events b
end

/-- The macro table: identifier → optional opaque definition
(HashMap<String, Option<TextMacroDefinition>>), modelled as an
association list whose construction keeps keys unique. -/
abbrev Defines : Type := List (String × Option PPNode)

/-- Association-list lookup (HashMap::get). -/
def lookupD : Defines → String → Option (Option PPNode)
  | [], _ => none
  | (k', v') :: rest, k => if k = k' then some v' else lookupD rest k

/-- HashMap::insert: replace the entry of an existing key, else append. -/
def insertD : Defines → String → Option PPNode → Defines
  | [], k, v => [(k, v)]
  | (k', v') :: rest, k, v =>
    if k = k' then (k, v) :: rest else (k', v') :: insertD rest k v

/-- HashMap::remove (no-op when the key is absent). -/
def removeD (m : Defines) (k : String) : Defines :=
  m.filter (fun kv => !(kv.1 = k : Bool))

/-- HashMap::contains_key. -/
def containsD (m : Defines) (k : String) : Bool :=
  (lookupD m k).isSome

/-- The driver's initialisation loop:
`for (k, v) in pre_defines { defines.insert(k.clone(), v.clone()) }`
starting from a fresh empty table. -/
def initDefines (pd : List (String × Option PPNode)) : Defines :=
  pd.foldl (fun m kv => insertD m kv.1 kv.2) []

/-- `locate.str(&s)`: the slice of the source at `[off, off+len)`. -/
def locateStr (src : List Char) (off len : Nat) : List Char :=
  (src.drop off).take len

/-- A parsed source file as delivered by the external collaborators:
its contents and the directive parser's result (`none` = parse failure). -/
structure SourceFile where
  src : List Char
  parsed : Option PPNodes

/-- The file system collaborator: a finite map path → file.  Existence
(`Path::exists`) and readability (`File::open` + `read_to_string`) are
modelled by the same map. -/
structure FS where
  files : List (String × SourceFile)

/-- read(path) → contents, or none (I/O failure). -/
def FS.read (fs : FS) (p : String) : Option SourceFile :=
  match fs.files.find? (fun kv => kv.1 == p) with
  | some kv => some kv.2
  | none => none

/-- Path::exists. -/
def FS.pathExists (fs : FS) (p : String) : Bool :=
  (fs.read p).isSome

/-- Path::is_relative (Unix): not rooted, i.e. the path does not start
with the separator. -/
def pathIsRelative (p : String) : Bool :=
  match p.data with
  | [] => true
  | c :: _ => !(c = '/' : Bool)

/-- Whether a path ends with the separator. -/
def endsWithSep (p : String) : Bool :=
  match p.data.getLast? with
  | some c => (c = '/' : Bool)
  | none => false

/-- Path::join for a relative right operand: add a separator unless the
root already ends with one. -/
def joinPath (root p : String) : String :=
  if endsWithSep root then root ++ p else root ++ "/" ++ p

/-- str::trim_matches(c): strip every leading and trailing `c`. -/
def trimMatches (c : Char) (s : List Char) : List Char :=
  ((s.dropWhile (fun a => a = c)).reverse.dropWhile (fun a => a = c)).reverse

/-- str::trim_start_matches(c). -/
def trimStartMatches (c : Char) (s : List Char) : List Char :=
  s.dropWhile (fun a => a = c)

/-- str::trim_end_matches(c). -/
def trimEndMatches (c : Char) (s : List Char) : List Char :=
  (s.reverse.dropWhile (fun a => a = c)).reverse

/-- Filename extraction of the include arm: strip `"` from a DoubleQuote
literal (trim_matches), strip `<` and `>` from an AngleBracket literal
(trim_start_matches / trim_end_matches). -/
def filenameOf : IncludeSpec → String
  | .doubleQuote lit => ⟨trimMatches '"' lit.data⟩
  | .angleBracket lit => ⟨trimEndMatches '>' (trimStartMatches '<' lit.data)⟩

/-- The include resolver of the include arm: keep an absolute filename;
keep a relative filename that exists; otherwise take the first search
root under which the join exists; otherwise keep the filename. -/
def resolveInclude (fs : FS) (includePaths : List String) (p : String) : String :=
  if pathIsRelative p then
    if fs.pathExists p then p
    else
      match includePaths.find? (fun root => fs.pathExists (joinPath root p)) with
      | some root => joinPath root p
      | none => p
  else p

/-- `identifier(...).unwrap()`: the extracted identifier, or a panic. -/
def exId : Option String → Except PPError String
  | some s => .ok s
  | none => .error .panicked

/-- The elsif loop of the ifdef/ifndef arms: for each clause extract its
identifier (unwrap), then — if a branch already hit, schedule the body;
else if the identifier is defined, mark the hit; else schedule the body. -/
def elsifLoop (defines : Defines) : Bool → List Nat → Elsifs →
    Except PPError (Bool × List Nat)
  | hit, sns, .nil => .ok (hit, sns)
  | hit, sns, .cons eid? ebody rest => do
    let eid ← exId eid?
    if hit then elsifLoop defines hit (sns ++ [ebody.nid]) rest
    else if containsD defines eid then elsifLoop defines true sns rest
    else elsifLoop defines hit (sns ++ [ebody.nid]) rest

/-- The conditional chain of the ifdef/ifndef arms (the two arms differ
only in the sense of the first test: `isNdef` inverts it).  Returns the
node handles pushed onto `skip_nodes`, in push order. -/
def ifdefChain (isNdef : Bool) (defines : Defines) (ifid : Option String)
    (ifbody : PPNode) (elsifs : Elsifs) (elsebody : ElseBody) :
    Except PPError (List Nat) := do
  let iid ← exId ifid
  let cond := containsD defines iid
  let taken := if isNdef then !cond else cond
  let r ← if taken then elsifLoop defines true [] elsifs
    else elsifLoop defines false [ifbody.nid] elsifs
  match elsebody with
  | .withElse b => if r.1 then .ok (r.2 ++ [b.nid]) else .ok r.2
  | .noElse => .ok r.2

/-- The driver's mutable locals: skip flag, scheduled subtree handles,
macro table, output buffer. -/
structure PState where
  skip : Bool
  skipNodes : List Nat
  defines : Defines
  ret : PreprocessedText

/-- The catch-all Enter arm: activate `skip` when the node was scheduled. -/
def catchAllEnter (st : PState) (n : PPNode) : PState :=
  if st.skipNodes.contains n.nid then { st with skip := true } else st

/-- One iteration of the event loop (the big match of `preprocess`),
parameterised by the recursive call used by the include arm.  Arms
guarded by `if !skip` in the source fall through to the catch-all when
`skip` is set. -/
def stepGo (recurse : String → Defines → Except PPError PreprocessedText)
    (fs : FS) (includePaths : List String) (src : List Char) (path : String)
    (st : PState) (e : Event) : Except PPError PState :=
  match e with
  | .leave n =>
      .ok (if st.skipNodes.contains n.nid then { st with skip := false } else st)
  | .enter n =>
    if st.skip then .ok (catchAllEnter st n)
    else
      match n with
      | .resetall _ => .ok { st with defines := [] }
      | .undefine _ name => do
          let id ← exId name
          .ok { st with defines := removeD st.defines id }
      | .undefineall _ => .ok { st with defines := [] }
      | .sourceText _ off len =>
          if off + len ≤ src.length then
            .ok { st with ret := st.ret.push (locateStr src off len) path ⟨off, off + len⟩ }
          else .error .panicked
      | .ifdefD _ ifid ib els eb => do
          let sns ← ifdefChain false st.defines ifid ib els eb
          .ok { st with skipNodes := st.skipNodes ++ sns }
      | .ifndefD _ ifid ib els eb => do
          let sns ← ifdefChain true st.defines ifid ib els eb
          .ok { st with skipNodes := st.skipNodes ++ sns }
      | .macroDef i name => do
          let id ← exId name
          .ok { st with defines := insertD st.defines id (some (.macroDef i name)) }
      | .includeD _ spec =>
          let p := resolveInclude fs includePaths (filenameOf spec)
          match recurse p st.defines with
          | .ok inc => .ok { st with ret := st.ret.merge inc }
          | .error err => .error err
      | .body _ _ => .ok (catchAllEnter st n)

/-- pub fn preprocess: read the file, parse it, fold the event loop from
the initial state, return the buffer.  The include recursion carries
explicit fuel (structural), consumed one unit per nesting level. -/
def preprocessR : Nat → FS → String → List (String × Option PPNode) →
    List String → Except PPError PreprocessedText
  | 0, _, _, _, _ => .error .overflow
  | fuel + 1, fs, path, preDefines, includePaths =>
    match fs.read path with
    | none => .error (.io path)
    | some file =>
      match file.parsed with
      | none => .error .parse
      | some tree =>
        match (PPNodes.events tree).foldlM
            (stepGo (fun p d => preprocessR fuel fs p d includePaths)
              fs includePaths file.src path)
            ⟨false, [], initDefines preDefines, PreprocessedText.new⟩ with
        | .ok st => .ok st.ret
        | .error e => .error e

/-- The event-loop body at a given fuel level (stepGo with the include
arm's recursive call tied to `preprocessR fuel`). -/
def step (fuel : Nat) (fs : FS) (includePaths : List String)
    (src : List Char) (path : String) : PState → Event → Except PPError PState :=
  stepGo (fun p d => preprocessR fuel fs p d includePaths) fs includePaths src path

/-- The first index at which a Boolean test list fires. -/
def firstHit : List Bool → Option Nat
  | [] => none
  | b :: rest => if b then some 0 else (firstHit rest).map (· + 1)

/-- The conditional chain as the spec states it: every body except the
first whose test passes is scheduled, and the else body is scheduled
exactly when some earlier branch hit. -/
def chainSpec (tests : List Bool) (bodies : List Nat) (elseId : Option Nat) :
    List Nat :=
  match firstHit tests with
  | none => bodies
  | some i => bodies.eraseIdx i ++ elseId.toList

/-- Build the elsif clauses from a list of (identifier, body) pairs whose
identifiers all extract successfully. -/
def mkElsifs : List (String × PPNode) → Elsifs
  | [] => .nil
  | (eid, b) :: rest => .cons (some eid) b (mkElsifs rest)

/-- Concatenation of elsif clause lists (used to place a clause whose
identifier extraction fails after an arbitrary well-formed prefix). -/
def Elsifs.append : Elsifs → Elsifs → Elsifs
  | .nil, e => e
  | .cons i b r, e => .cons i b (Elsifs.append r e)

/-- The handle of the optional else body. -/
def elseNid : ElseBody → Option Nat
  | .noElse => none
  | .withElse b => some b.nid

/-- The elsif tests, in order: defined-ness of each elsif identifier. -/
def elsifTests (defines : Defines) (l : List (String × PPNode)) : List Bool :=
  l.map (fun ab => containsD defines ab.1)

/-- The elsif body handles, in order. -/
def elsifBodyIds (l : List (String × PPNode)) : List Nat :=
  l.map (fun ab => ab.2.nid)

/-- The buffer values reachable by the driver's buffer operations: the
empty buffer, a push of a slice whose length matches the origin range
(the SourceText arm pushes `src[off..off+len]` with origin range
`[off, off+len)` after the bounds check), and a merge with another
reachable buffer (the include arm). -/
inductive Built : PreprocessedText → Prop where
  | empty : Built PreprocessedText.new
  | push (pt : PreprocessedText) (s : List Char) (p : String) (r : Range) :
      Built pt → s.length = r.endp - r.begin → r.begin ≤ r.endp →
      Built (pt.push s p r)
  | merge (pt other : PreprocessedText) :
      Built pt → Built other → Built (pt.merge other)

/-- Structural well-formedness of one origin-map entry at buffer length
`len`: the key equals the record's range, the range is a valid interval
lying within the buffer, and the origin range has the same length. -/
def entryWF (len : Nat) (kv : Range × Origin) : Prop :=
  kv.1 = kv.2.range ∧ kv.1.begin ≤ kv.1.endp ∧ kv.1.endp ≤ len ∧
  kv.2.origin_range.endp = kv.2.origin_range.begin + (kv.1.endp - kv.1.begin)

/-- Two origin-map entries in ascending, disjoint position. -/
def keyBelow (a b : Range × Origin) : Prop :=
  a.1.endp ≤ b.1.begin

/-- The full structural invariant of a buffer. -/
def PTInv (pt : PreprocessedText) : Prop :=
  (∀ kv ∈ pt.origins, entryWF pt.text.length kv) ∧ pt.origins.Pairwise keyBelow

/-- A directive tree consisting solely of SourceText leaves whose locates
tile `[k, m)` contiguously (the collaborator contract: leaves cover
exactly the source bytes). -/
inductive Covering : Nat → PPNodes → Nat → Prop where
  | nil (k : Nat) : Covering k .nil k
  | cons (k len i m : Nat) (ns : PPNodes) :
      Covering (k + len) ns m →
      Covering k (.cons (.sourceText i k len) ns) m

/-- Fixture: a file whose only directive is an Undefine in which
identifier extraction finds no identifier. -/
def fsC6 : FS :=
  ⟨[("m.sv", ⟨"x".data, some (.cons (.undefine 0 none) .nil)⟩)]⟩

/-- Fixture: a buffer holding one pushed slice. -/
def ptW : PreprocessedText :=
  PreprocessedText.new.push "ab".data "w.sv" ⟨5, 7⟩

/-- Fixture: a driver state with one scheduled node handle. -/
def stW : PState :=
  ⟨false, [7], [("X", none)], PreprocessedText.new⟩

/-- Fixture: a file system holding one includable file. -/
def fsW : FS :=
  ⟨[("inc.sv", ⟨"cd".data, some (.cons (.sourceText 3 0 2) .nil)⟩)]⟩

/-- Fixture: a file with no directive tokens (two SourceText leaves
covering the whole source). -/
def fsC7 : FS :=
  ⟨[("p.sv", ⟨"wire w;".data,
      some (.cons (.sourceText 0 0 4) (.cons (.sourceText 1 4 3) .nil))⟩)]⟩

/-! ## Lemmas about the macro table -/

theorem lookupD_insertD (m : Defines) (a k : String) (b : Option PPNode) :
    lookupD (insertD m a b) k = if k = a then some b else lookupD m k := by
  induction m with
  | nil =>
    by_cases hk : k = a <;> simp [insertD, lookupD, hk]
  | cons hd tl ih =>
    obtain ⟨kh, vh⟩ := hd
    by_cases hak : a = kh
    · subst hak
      simp only [insertD, if_pos rfl, lookupD]
      by_cases hk : k = a <;> simp [hk]
    · simp only [insertD, if_neg hak, lookupD]
      by_cases hk : k = kh
      · have hka : ¬ k = a := fun h => hak (h.symm.trans hk)
        simp only [if_pos hk, if_neg hka]
      · simp [hk, ih]

theorem lookupD_eq_none_of_not_mem (m : Defines) (k : String)
    (h : k ∉ m.map Prod.fst) : lookupD m k = none := by
  induction m with
  | nil => rfl
  | cons hd tl ih =>
    simp only [List.map_cons, List.mem_cons] at h
    push_neg at h
    simp [lookupD, h.1, ih h.2]

theorem initDefines_go (pd : List (String × Option PPNode)) :
    ∀ (acc : Defines) (k : String), (pd.map Prod.fst).Nodup →
    lookupD (pd.foldl (fun m kv => insertD m kv.1 kv.2) acc) k =
      ((lookupD pd k).orElse (fun _ => lookupD acc k)) := by
  induction pd with
  | nil => intro acc k _; simp [lookupD]
  | cons hd tl ih =>
    intro acc k hnd
    obtain ⟨kh, vh⟩ := hd
    simp only [List.map_cons, List.nodup_cons] at hnd
    simp only [List.foldl_cons]
    rw [ih _ k hnd.2]
    by_cases hk : k = kh
    · have hnone : lookupD tl k = none :=
        lookupD_eq_none_of_not_mem tl k (by rw [hk]; exact hnd.1)
      rw [hk] at hnone
      simp [lookupD, hk, hnone, lookupD_insertD]
    · simp [lookupD, hk, lookupD_insertD]

/-! ## C9 — I/O errors annotated with the path -/

/-- C9: when opening or reading a source file fails, preprocess returns
an I/O error annotated with the path of the offending file. -/
theorem C9_io_error_annotated (fuel : Nat) (fs : FS) (path : String)
    (pd : List (String × Option PPNode)) (includePaths : List String)
    (h : fs.read path = none) :
    preprocessR (fuel + 1) fs path pd includePaths = .error (.io path) := by
  simp [preprocessR, h]

theorem C9_io_error_annotated_witness :
    FS.read ⟨[]⟩ "missing.sv" = none ∧
    preprocessR 1 ⟨[]⟩ "missing.sv" [] [] = .error (.io "missing.sv") :=
  ⟨rfl, C9_io_error_annotated 0 ⟨[]⟩ "missing.sv" [] [] rfl⟩

/-! ## C10 — pre_defines is only copied, never mutated -/

/-- C10: the driver builds its local macro table by copying every entry
of `pre_defines` into a freshly created table; the copy has exactly the
same entries.  (The call itself cannot mutate the caller's map: in the
source `pre_defines` is taken by shared reference, which the pure
embedding reflects by `preprocessR` taking the list as a value.) -/
theorem C10_predefines_copied (pd : List (String × Option PPNode))
    (h : (pd.map Prod.fst).Nodup) :
    ∀ k, lookupD (initDefines pd) k = lookupD pd k := by
  intro k
  have hgo := initDefines_go pd [] k h
  simp only [initDefines]
  rw [hgo]
  cases hpd : lookupD pd k <;> simp [lookupD]

theorem C10_predefines_copied_witness :
    lookupD (initDefines [("A", none), ("B", none)]) "A" =
      lookupD [("A", none), ("B", none)] "A" :=
  C10_predefines_copied [("A", none), ("B", none)] (by decide) "A"

/-! ## C4 — include resolution -/

theorem find?_first_index {α : Type} (p : α → Bool) :
    ∀ (l : List α) (i : Nat) (h : i < l.length),
      p (l.get ⟨i, h⟩) = true →
      (∀ j (hj : j < l.length), j < i → p (l.get ⟨j, hj⟩) = false) →
      l.find? p = some (l.get ⟨i, h⟩) := by
  intro l
  induction l with
  | nil => intro i h; exact absurd h (by simp)
  | cons a tl ih =>
    intro i h hp hprev
    cases i with
    | zero =>
      simp only [List.get] at hp
      simp [List.find?, hp]
    | succ i =>
      have ha : p a = false := hprev 0 (by simp) (Nat.succ_pos i)
      simp only [List.get] at hp ⊢
      rw [List.find?_cons_of_neg _ (by simp [ha])]
      exact ih i (Nat.lt_of_succ_lt_succ h) hp
        (fun j hj hji => hprev (j + 1) (Nat.succ_lt_succ hj) (Nat.succ_lt_succ hji))

/-- C4: the include resolver keeps an absolute filename as-is; keeps a
relative filename that exists as-is; otherwise takes `join(root,
filename)` for the first search root (in list order) under which the
join exists; otherwise keeps the original relative filename.  Quoted and
angle-bracketed includes resolve by the same policy once the delimiters
are stripped. -/
theorem C4_include_resolution (fs : FS) (roots : List String) (p : String) :
    (pathIsRelative p = false → resolveInclude fs roots p = p) ∧
    (pathIsRelative p = true → fs.pathExists p = true →
      resolveInclude fs roots p = p) ∧
    (∀ i (h : i < roots.length),
      pathIsRelative p = true → fs.pathExists p = false →
      fs.pathExists (joinPath (roots.get ⟨i, h⟩) p) = true →
      (∀ j (hj : j < roots.length), j < i →
        fs.pathExists (joinPath (roots.get ⟨j, hj⟩) p) = false) →
      resolveInclude fs roots p = joinPath (roots.get ⟨i, h⟩) p) ∧
    ((∀ r ∈ roots, fs.pathExists (joinPath r p) = false) →
      pathIsRelative p = true → fs.pathExists p = false →
      resolveInclude fs roots p = p) ∧
    (∀ (lit lit' : String),
      filenameOf (.doubleQuote lit) = filenameOf (.angleBracket lit') →
      ∀ (fuel : Nat) (src : List Char) (path' : String) (st : PState) (i i' : Nat),
        st.skip = false →
        step fuel fs roots src path' st (.enter (.includeD i (.doubleQuote lit))) =
        step fuel fs roots src path' st (.enter (.includeD i' (.angleBracket lit')))) := by
  refine ⟨?_, ?_, ?_, ?_, ?_⟩
  · intro habs; simp [resolveInclude, habs]
  · intro hrel hex; simp [resolveInclude, hrel, hex]
  · intro i h hrel hex hhit hprev
    have hf := find?_first_index (fun root => fs.pathExists (joinPath root p))
      roots i h hhit hprev
    simp [resolveInclude, hrel, hex, hf]
  · intro hall hrel hex
    have hf : roots.find? (fun root => fs.pathExists (joinPath root p)) = none := by
      rw [List.find?_eq_none]
      intro x hx
      simp [hall x hx]
    simp [resolveInclude, hrel, hex, hf]
  · intro lit lit' heq fuel src path' st i i' hskip
    simp [step, stepGo, hskip, heq]

theorem C4_include_resolution_witness :
    resolveInclude fsW [] "inc.sv" = "inc.sv" :=
  (C4_include_resolution fsW [] "inc.sv").2.1 rfl rfl

/-! ## C2 — the conditional chain schedules every non-taken body -/

theorem ok_bind {a b : Type} (x : a) (f : a → Except PPError b) :
    (Except.ok x >>= f) = f x := rfl

theorem error_bind {a b : Type} (e : PPError) (f : a → Except PPError b) :
    ((Except.error e : Except PPError a) >>= f) = Except.error e := rfl

theorem elsifLoop_hit (defines : Defines) (l : List (String × PPNode)) :
    ∀ acc, elsifLoop defines true acc (mkElsifs l) =
      .ok (true, acc ++ elsifBodyIds l) := by
  induction l with
  | nil => intro acc; simp [mkElsifs, elsifLoop, elsifBodyIds]
  | cons ab rest ih =>
    intro acc
    obtain ⟨eid, b⟩ := ab
    simp [mkElsifs, elsifLoop, exId, ok_bind, elsifBodyIds, ih]

theorem elsifLoop_nohit (defines : Defines) (l : List (String × PPNode)) :
    ∀ acc, elsifLoop defines false acc (mkElsifs l) =
      match firstHit (elsifTests defines l) with
      | none => .ok (false, acc ++ elsifBodyIds l)
      | some i => .ok (true, acc ++ (elsifBodyIds l).eraseIdx i) := by
  induction l with
  | nil => intro acc; simp [mkElsifs, elsifLoop, elsifTests, elsifBodyIds, firstHit]
  | cons ab rest ih =>
    intro acc
    obtain ⟨eid, b⟩ := ab
    by_cases hc : containsD defines eid = true
    · simp [mkElsifs, elsifLoop, exId, ok_bind, hc, elsifTests, elsifBodyIds,
        firstHit, elsifLoop_hit]
    · have hcf : containsD defines eid = false := by
        cases h : containsD defines eid
        · rfl
        · exact absurd h hc
      simp only [mkElsifs, elsifLoop, exId, ok_bind, hcf, Bool.false_eq_true,
        if_false]
      rw [ih (acc ++ [b.nid])]
      simp only [elsifTests, elsifBodyIds, List.map_cons, firstHit, hcf,
        Bool.false_eq_true, if_false]
      cases hfh : firstHit (List.map (fun ab => containsD defines ab.1) rest) <;>
        simp [hfh, List.eraseIdx]

theorem ifdefChain_spec (isNdef : Bool) (defines : Defines) (iid : String)
    (ib : PPNode) (l : List (String × PPNode)) (eb : ElseBody) :
    ifdefChain isNdef defines (some iid) ib (mkElsifs l) eb =
      .ok (chainSpec
        ((if isNdef then !(containsD defines iid) else containsD defines iid) ::
          elsifTests defines l)
        (ib.nid :: elsifBodyIds l) (elseNid eb)) := by
  cases hnd : isNdef <;> cases hc : containsD defines iid <;>
    simp only [ifdefChain, exId, ok_bind, hnd, hc, Bool.not_false, Bool.not_true,
      if_true, if_false, Bool.false_eq_true, ite_true, ite_false,
      elsifLoop_hit, elsifLoop_nohit] <;>
    (cases hfh : firstHit (elsifTests defines l) <;> cases eb <;>
      simp [chainSpec, firstHit, hfh, elseNid, ok_bind, List.eraseIdx])

/-- C2: entering an Ifdef or Ifndef directive with `skip == false`
schedules exactly the bodies of the non-taken branches: the first test is
defined-ness of the identifier (inverted for Ifndef), each elsif in order
tests defined-ness only if no earlier branch hit, and the else body is
scheduled exactly when some earlier branch hit. -/
theorem C2_conditional_chain (fuel : Nat) (fs : FS) (includePaths : List String)
    (src : List Char) (path : String) (st : PState) (i : Nat) (iid : String)
    (ib : PPNode) (l : List (String × PPNode)) (eb : ElseBody)
    (hskip : st.skip = false) :
    step fuel fs includePaths src path st
        (.enter (.ifdefD i (some iid) ib (mkElsifs l) eb)) =
      .ok { st with skipNodes := (st.skipNodes ++
        chainSpec (containsD st.defines iid :: elsifTests st.defines l)
          (ib.nid :: elsifBodyIds l) (elseNid eb)) } ∧
    step fuel fs includePaths src path st
        (.enter (.ifndefD i (some iid) ib (mkElsifs l) eb)) =
      .ok { st with skipNodes := (st.skipNodes ++
        chainSpec ((!containsD st.defines iid) :: elsifTests st.defines l)
          (ib.nid :: elsifBodyIds l) (elseNid eb)) } := by
  constructor <;>
    simp [step, stepGo, hskip, ifdefChain_spec, ok_bind]

theorem C2_conditional_chain_witness :
    step 0 fsW [] [] "t.sv" stW
        (.enter (.ifdefD 1 (some "X") (.body 2 .nil) (mkElsifs [])
          (.withElse (.body 3 .nil)))) =
      .ok { stW with skipNodes := (stW.skipNodes ++
        chainSpec (containsD stW.defines "X" :: elsifTests stW.defines [])
          ((PPNode.body 2 .nil).nid :: elsifBodyIds [])
          (elseNid (.withElse (.body 3 .nil)))) } :=
  (C2_conditional_chain 0 fsW [] [] "t.sv" stW 1 "X" (.body 2 .nil) []
    (.withElse (.body 3 .nil)) rfl).1

/-! ## C3 — skip is scoped to exactly the scheduled subtrees -/

/-- C3: during the event loop, `skip` becomes true exactly on Enter of a
scheduled node and false again on that node's Leave, and while `skip` is
true no event changes the output buffer, the macro table or the schedule. -/
theorem C3_skip_scoped (fuel : Nat) (fs : FS) (includePaths : List String)
    (src : List Char) (path : String) (st : PState) :
    (∀ i cs, step fuel fs includePaths src path st (.enter (.body i cs)) =
      .ok { st with skip := st.skip || st.skipNodes.contains i }) ∧
    (∀ n, step fuel fs includePaths src path st (.leave n) =
      .ok { st with skip := st.skip && !(st.skipNodes.contains n.nid) }) ∧
    (∀ e st', st.skip = true →
      step fuel fs includePaths src path st e = .ok st' →
      st'.ret = st.ret ∧ st'.defines = st.defines ∧ st'.skipNodes = st.skipNodes) ∧
    (∀ e st', step fuel fs includePaths src path st e = .ok st' →
      st.skip = false → st'.skip = true →
      ∃ n, e = .enter n ∧ st.skipNodes.contains n.nid = true) ∧
    (∀ e st', step fuel fs includePaths src path st e = .ok st' →
      st.skip = true → st'.skip = false →
      ∃ n, e = .leave n ∧ st.skipNodes.contains n.nid = true) := by
  obtain ⟨sk, sns, dfs, ret⟩ := st
  refine ⟨?_, ?_, ?_, ?_, ?_⟩
  · intro i cs
    cases sk <;> by_cases hc : i ∈ sns <;>
      simp [step, stepGo, catchAllEnter, PPNode.nid, hc]
  · intro n
    cases sk <;> by_cases hc : n.nid ∈ sns <;>
      simp [step, stepGo, hc]
  · intro e st' hs hstep
    cases sk
    · exact absurd hs (by simp)
    · cases e with
      | enter n =>
        by_cases hc : n.nid ∈ sns <;>
          simp [step, stepGo, catchAllEnter, hc] at hstep <;>
          subst hstep <;> simp
      | leave n =>
        by_cases hc : n.nid ∈ sns <;>
          simp [step, stepGo, hc] at hstep <;>
          subst hstep <;> simp
  · intro e st' hstep hs htrue
    cases sk
    · cases e with
      | leave n =>
        by_cases hc : n.nid ∈ sns <;>
          simp [step, stepGo, hc] at hstep <;>
          subst hstep <;> simp at htrue
      | enter n =>
        simp only [step, stepGo] at hstep
        cases n with
        | resetall i =>
          simp at hstep; subst hstep; simp at htrue
        | undefine i name =>
          cases name with
          | none => simp [exId, error_bind] at hstep
          | some id =>
            simp [exId, ok_bind] at hstep; subst hstep; simp at htrue
        | undefineall i =>
          simp at hstep; subst hstep; simp at htrue
        | sourceText i off len =>
          by_cases hb : off + len ≤ src.length
          · simp [hb] at hstep; subst hstep; simp at htrue
          · simp [hb] at hstep
        | body i cs =>
          by_cases hc : i ∈ sns
          · exact ⟨.body i cs, rfl, by simp [PPNode.nid, hc]⟩
          · simp [catchAllEnter, PPNode.nid, hc] at hstep
            subst hstep; simp at htrue
        | ifdefD i iid ib els eb =>
          cases hch : ifdefChain false dfs iid ib els eb with
          | error err => simp [hch, error_bind] at hstep
          | ok sns' =>
            simp [hch, ok_bind] at hstep; subst hstep; simp at htrue
        | ifndefD i iid ib els eb =>
          cases hch : ifdefChain true dfs iid ib els eb with
          | error err => simp [hch, error_bind] at hstep
          | ok sns' =>
            simp [hch, ok_bind] at hstep; subst hstep; simp at htrue
        | macroDef i name =>
          cases name with
          | none => simp [exId, error_bind] at hstep
          | some id =>
            simp [exId, ok_bind] at hstep; subst hstep; simp at htrue
        | includeD i spec =>
          cases hinc : preprocessR fuel fs
              (resolveInclude fs includePaths (filenameOf spec)) dfs includePaths with
          | error err => simp [hinc] at hstep
          | ok incres =>
            simp [hinc] at hstep; subst hstep; simp at htrue
    · exact absurd hs (by simp)
  · intro e st' hstep hs hfalse
    cases sk
    · exact absurd hs (by simp)
    · cases e with
      | enter n =>
        by_cases hc : n.nid ∈ sns <;>
          simp [step, stepGo, catchAllEnter, hc] at hstep <;>
          subst hstep <;> simp at hfalse
      | leave n =>
        by_cases hc : n.nid ∈ sns
        · exact ⟨n, rfl, by simp [hc]⟩
        · simp [step, stepGo, hc] at hstep
          subst hstep; simp at hfalse

theorem C3_skip_scoped_witness :
    step 0 fsW [] [] "t.sv" stW (.enter (.body 7 .nil)) =
      .ok { stW with skip := stW.skip || stW.skipNodes.contains 7 } :=
  (C3_skip_scoped 0 fsW [] [] "t.sv" stW).1 7 .nil

/-! ## C5 — includes receive a snapshot; the caller's table is unchanged -/

/-- C5: the recursive preprocess call of an include receives the caller's
macro table as of the include event, and nothing the included file does
changes the caller's table: on return only the output buffer has grown
(by merge of the include's result); `defines`, `skip` and `skip_nodes`
are exactly what they were. -/
theorem C5_include_snapshot (fuel : Nat) (fs : FS) (includePaths : List String)
    (src : List Char) (path : String) (st : PState) (i : Nat)
    (spec : IncludeSpec) (hskip : st.skip = false) :
    step fuel fs includePaths src path st (.enter (.includeD i spec)) =
      (match preprocessR fuel fs (resolveInclude fs includePaths (filenameOf spec))
          st.defines includePaths with
       | .ok incres => .ok { st with ret := st.ret.merge incres }
       | .error err => .error err) ∧
    (∀ st', step fuel fs includePaths src path st (.enter (.includeD i spec)) =
        .ok st' →
      st'.defines = st.defines ∧ st'.skip = st.skip ∧
        st'.skipNodes = st.skipNodes) := by
  obtain ⟨sk, sns, dfs, ret⟩ := st
  cases sk
  · refine ⟨?_, ?_⟩
    · simp only [step, stepGo]
      cases hinc : preprocessR fuel fs
          (resolveInclude fs includePaths (filenameOf spec)) dfs includePaths <;>
        simp [hinc]
    · intro st' hstep
      simp only [step, stepGo] at hstep
      cases hinc : preprocessR fuel fs
          (resolveInclude fs includePaths (filenameOf spec)) dfs includePaths with
      | error err => simp [hinc] at hstep
      | ok incres => simp [hinc] at hstep; subst hstep; simp
  · exact absurd hskip (by simp)

theorem C5_include_snapshot_witness :
    step 1 fsW [] [] "t.sv" stW (.enter (.includeD 9 (.doubleQuote "\"inc.sv\""))) =
      (match preprocessR 1 fsW
          (resolveInclude fsW [] (filenameOf (.doubleQuote "\"inc.sv\"")))
          stW.defines [] with
       | .ok incres => .ok { stW with ret := stW.ret.merge incres }
       | .error err => .error err) :=
  (C5_include_snapshot 1 fsW [] [] "t.sv" stW 9 (.doubleQuote "\"inc.sv\"") rfl).1

/-! ## C6 — malformed directives panic instead of returning a parse error -/

/-- C6 (counterexample): on a file whose only directive is an Undefine in
which identifier extraction finds no identifier, preprocess does not
return a parse error: the source calls `identifier(...).unwrap()`, which
panics on None (modelled as the distinct `panicked` outcome). -/
theorem C6_counterexample :
    preprocessR 1 fsC6 "m.sv" [] [] = .error .panicked ∧
    preprocessR 1 fsC6 "m.sv" [] [] ≠ .error .parse := by
  have h1 : preprocessR 1 fsC6 "m.sv" [] [] = .error .panicked := rfl
  refine ⟨h1, ?_⟩
  rw [h1]
  simp

theorem elsifLoop_elsif_none (defines : Defines) (b : PPNode) (rest : Elsifs) :
    ∀ (l : List (String × PPNode)) (hit : Bool) (sns : List Nat),
      elsifLoop defines hit sns (Elsifs.append (mkElsifs l) (.cons none b rest)) =
        .error .panicked := by
  intro l
  induction l with
  | nil =>
    intro hit sns
    simp [mkElsifs, Elsifs.append, elsifLoop, exId, error_bind]
  | cons ab tl ih =>
    intro hit sns
    obtain ⟨eid, eb⟩ := ab
    by_cases hc : containsD defines eid = true <;>
      cases hit <;>
        simp [mkElsifs, Elsifs.append, elsifLoop, exId, ok_bind, hc, ih]

/-- C6 (amended): when identifier extraction finds no identifier in a
directive position that requires one — an Undefine, a MacroDefinition,
the first identifier of an Ifdef/Ifndef, or any elsif clause of an
Ifdef/Ifndef — and the directive is processed with `skip == false`, the
preprocessor panics (Option::unwrap on None): the event-loop step yields
the panic outcome, and a file beginning with such a directive makes
preprocess return the panic outcome — neither success nor a parse
error. -/
theorem C6_amended (fuel : Nat) (fs : FS) (includePaths : List String)
    (src : List Char) (path : String) (st : PState) (hskip : st.skip = false) :
    (∀ i, step fuel fs includePaths src path st (.enter (.undefine i none)) =
      .error .panicked) ∧
    (∀ i, step fuel fs includePaths src path st (.enter (.macroDef i none)) =
      .error .panicked) ∧
    (∀ i ib els eb, step fuel fs includePaths src path st
      (.enter (.ifdefD i none ib els eb)) = .error .panicked) ∧
    (∀ i ib els eb, step fuel fs includePaths src path st
      (.enter (.ifndefD i none ib els eb)) = .error .panicked) ∧
    (∀ i iid ib (l : List (String × PPNode)) (b : PPNode) (rest : Elsifs) eb,
      step fuel fs includePaths src path st
        (.enter (.ifdefD i (some iid) ib
          (Elsifs.append (mkElsifs l) (.cons none b rest)) eb)) =
        .error .panicked) ∧
    (∀ i iid ib (l : List (String × PPNode)) (b : PPNode) (rest : Elsifs) eb,
      step fuel fs includePaths src path st
        (.enter (.ifndefD i (some iid) ib
          (Elsifs.append (mkElsifs l) (.cons none b rest)) eb)) =
        .error .panicked) ∧
    (∀ i rest pd srcf,
      fs.read path = some ⟨srcf, some (.cons (.undefine i none) rest)⟩ →
      preprocessR (fuel + 1) fs path pd includePaths = .error .panicked) := by
  refine ⟨?_, ?_, ?_, ?_, ?_, ?_, ?_⟩
  · intro i
    simp [step, stepGo, hskip, exId, error_bind]
  · intro i
    simp [step, stepGo, hskip, exId, error_bind]
  · intro i ib els eb
    simp [step, stepGo, hskip, ifdefChain, exId, error_bind]
  · intro i ib els eb
    simp [step, stepGo, hskip, ifdefChain, exId, error_bind]
  · intro i iid ib l b rest eb
    simp [step, stepGo, hskip, ifdefChain, exId, ok_bind, error_bind,
      elsifLoop_elsif_none]
  · intro i iid ib l b rest eb
    simp [step, stepGo, hskip, ifdefChain, exId, ok_bind, error_bind,
      elsifLoop_elsif_none]
  · intro i rest pd srcf hread
    simp [preprocessR, hread, PPNodes.events, PPNode.events, List.foldlM_cons,
      stepGo, exId, error_bind]

theorem C6_amended_witness :
    step 0 fsW [] [] "t.sv" stW (.enter (.undefine 4 none)) = .error .panicked :=
  (C6_amended 0 fsW [] [] "t.sv" stW rfl).1 4

/-! ## Buffer invariants (shared by C1 and C8) -/

theorem mem_insertOrigin (k : Range) (v : Origin) :
    ∀ (l : List (Range × Origin)) (x : Range × Origin),
      x ∈ insertOrigin l k v → x ∈ l ∨ x = (k, v) := by
  intro l
  induction l with
  | nil =>
    intro x hx
    simp only [insertOrigin] at hx
    right; simpa using hx
  | cons a rest ih =>
    intro x hx
    obtain ⟨k', v'⟩ := a
    simp only [insertOrigin] at hx
    by_cases h1 : rangeLt k k' = true
    · rw [if_pos h1] at hx
      rcases List.mem_cons.mp hx with h | h
      · right; exact h
      · left; exact h
    · rw [if_neg h1] at hx
      by_cases h2 : k = k'
      · rw [if_pos h2] at hx
        rcases List.mem_cons.mp hx with h | h
        · right; exact h
        · left; exact List.mem_cons_of_mem _ h
      · rw [if_neg h2] at hx
        rcases List.mem_cons.mp hx with h | h
        · left; rw [h]; exact List.mem_cons_self _ _
        · rcases ih x h with h' | h'
          · left; exact List.mem_cons_of_mem _ h'
          · right; exact h'

theorem pairwise_insertOrigin (k : Range) (v : Origin) (hk : k.begin ≤ k.endp) :
    ∀ (l : List (Range × Origin)),
      (∀ x ∈ l, x.1.begin ≤ x.1.endp) →
      (∀ x ∈ l, keyBelow x (k, v)) →
      l.Pairwise keyBelow →
      (insertOrigin l k v).Pairwise keyBelow := by
  intro l
  induction l with
  | nil =>
    intro _ _ _
    simp [insertOrigin]
  | cons a rest ih =>
    intro hval hall hp
    obtain ⟨k', v'⟩ := a
    rw [List.pairwise_cons] at hp
    have hbelow : k'.endp ≤ k.begin := hall (k', v') (List.mem_cons_self _ _)
    have hvk : k'.begin ≤ k'.endp := hval (k', v') (List.mem_cons_self _ _)
    simp only [insertOrigin]
    by_cases h1 : rangeLt k k' = true
    · -- k' ends at or before k begins yet k compares strictly below k':
      -- impossible for valid intervals, so anything follows.
      simp only [rangeLt, Bool.or_eq_true, Bool.and_eq_true,
        decide_eq_true_eq] at h1
      rw [if_pos (by
        simp only [rangeLt, Bool.or_eq_true, Bool.and_eq_true,
          decide_eq_true_eq]
        exact h1)]
      rcases h1 with hlt | ⟨heq, hlt⟩
      · omega
      · omega
    · rw [if_neg h1]
      by_cases h2 : k = k'
      · rw [if_pos h2]
        rw [List.pairwise_cons]
        constructor
        · intro b hb
          have := hp.1 b hb
          simp only [keyBelow] at this ⊢
          subst h2
          omega
        · exact hp.2
      · rw [if_neg h2]
        rw [List.pairwise_cons]
        constructor
        · intro b hb
          rcases mem_insertOrigin k v rest b hb with h | h
          · exact hp.1 b h
          · subst h
            exact hall (k', v') (List.mem_cons_self _ _)
        · exact ih (fun x hx => hval x (List.mem_cons_of_mem _ hx))
            (fun x hx => hall x (List.mem_cons_of_mem _ hx)) hp.2

theorem PTInv_new : PTInv PreprocessedText.new := by
  constructor
  · intro kv hkv
    simp [PreprocessedText.new] at hkv
  · simp [PreprocessedText.new]

theorem PTInv_push (pt : PreprocessedText) (s : List Char) (p : String)
    (r : Range) (hlen : s.length = r.endp - r.begin) (hr : r.begin ≤ r.endp)
    (h : PTInv pt) : PTInv (pt.push s p r) := by
  obtain ⟨hwf, hpw⟩ := h
  constructor
  · intro kv hkv
    simp only [PreprocessedText.push] at hkv
    rcases mem_insertOrigin _ _ _ _ hkv with hold | hnew
    · have := hwf kv hold
      simp only [entryWF] at this ⊢
      simp only [PreprocessedText.push, List.length_append]
      refine ⟨this.1, this.2.1, ?_, this.2.2.2⟩
      omega
    · subst hnew
      refine ⟨rfl, ?_, ?_, ?_⟩ <;>
        · simp only [PreprocessedText.push, List.length_append, entryWF]
          omega
  · simp only [PreprocessedText.push]
    apply pairwise_insertOrigin _ _ (by simp)
    · intro x hx
      have := hwf x hx
      simp only [entryWF] at this
      omega
    · intro x hx
      have := hwf x hx
      simp only [entryWF] at this
      simp only [keyBelow]
      omega
    · exact hpw

theorem PTInv_mergeFold (base L2 : Nat) :
    ∀ (os : List (Range × Origin)),
      (∀ y ∈ os, entryWF L2 y) → os.Pairwise keyBelow →
      ∀ (acc : List (Range × Origin)),
        (∀ x ∈ acc, entryWF (base + L2) x) →
        acc.Pairwise keyBelow →
        (∀ x ∈ acc, ∀ y ∈ os, x.1.endp ≤ base + y.1.begin) →
        ((os.foldl (fun m kv => insertOrigin m (kv.1.offset base)
            { kv.2 with range := kv.2.range.offset base }) acc).Pairwise keyBelow ∧
         ∀ x ∈ os.foldl (fun m kv => insertOrigin m (kv.1.offset base)
            { kv.2 with range := kv.2.range.offset base }) acc,
           entryWF (base + L2) x) := by
  intro os
  induction os with
  | nil =>
    intro _ _ acc hacc haccp _
    exact ⟨haccp, hacc⟩
  | cons y os' ih =>
    intro hos hosp acc hacc haccp hsep
    obtain ⟨yk, yv⟩ := y
    obtain ⟨yr, yp, yor⟩ := yv
    rw [List.pairwise_cons] at hosp
    have hywf := hos _ (List.mem_cons_self _ _)
    simp only [entryWF] at hywf
    obtain ⟨hk1, hk2, hk3, hk4⟩ := hywf
    subst hk1
    simp only [List.foldl_cons]
    have hvalid : ∀ x ∈ acc, x.1.begin ≤ x.1.endp := by
      intro x hx
      exact (hacc x hx).2.1
    have hall : ∀ x ∈ acc,
        keyBelow x (yk.offset base, (⟨yk.offset base, yp, yor⟩ : Origin)) := by
      intro x hx
      have h : x.1.endp ≤ base + yk.begin :=
        hsep x hx (yk, (⟨yk, yp, yor⟩ : Origin)) (List.mem_cons_self _ _)
      simp only [keyBelow, Range.offset]
      omega
    have hk : (yk.offset base).begin ≤ (yk.offset base).endp := by
      simp only [Range.offset]
      omega
    have haccp' := pairwise_insertOrigin _ _ hk acc hvalid hall haccp
    have hacc' : ∀ x ∈ insertOrigin acc (yk.offset base)
        (⟨yk.offset base, yp, yor⟩ : Origin), entryWF (base + L2) x := by
      intro x hx
      rcases mem_insertOrigin _ _ _ _ hx with hold | hnew
      · exact hacc x hold
      · subst hnew
        refine ⟨rfl, ?_, ?_, ?_⟩ <;>
          · simp only [Range.offset]
            omega
    have hsep' : ∀ x ∈ insertOrigin acc (yk.offset base)
        (⟨yk.offset base, yp, yor⟩ : Origin),
        ∀ y' ∈ os', x.1.endp ≤ base + y'.1.begin := by
      intro x hx y' hy'
      rcases mem_insertOrigin _ _ _ _ hx with hold | hnew
      · exact hsep x hold y' (List.mem_cons_of_mem _ hy')
      · subst hnew
        have h : yk.endp ≤ y'.1.begin := hosp.1 y' hy'
        simp only [Range.offset]
        omega
    exact ih (fun x hx => hos x (List.mem_cons_of_mem _ hx)) hosp.2 _
      hacc' haccp' hsep'

theorem PTInv_merge (pt other : PreprocessedText)
    (h1 : PTInv pt) (h2 : PTInv other) : PTInv (pt.merge other) := by
  obtain ⟨hwf1, hpw1⟩ := h1
  obtain ⟨hwf2, hpw2⟩ := h2
  have hwf1' : ∀ x ∈ pt.origins,
      entryWF (pt.text.length + other.text.length) x := by
    intro x hx
    have := hwf1 x hx
    simp only [entryWF] at this ⊢
    exact ⟨this.1, this.2.1, by omega, this.2.2.2⟩
  have hsep : ∀ x ∈ pt.origins, ∀ y ∈ other.origins,
      x.1.endp ≤ pt.text.length + y.1.begin := by
    intro x hx y hy
    have := hwf1 x hx
    simp only [entryWF] at this
    omega
  have hm := PTInv_mergeFold pt.text.length other.text.length other.origins
    hwf2 hpw2 pt.origins hwf1' hpw1 hsep
  constructor
  · intro kv hkv
    simp only [PreprocessedText.merge] at hkv
    have := hm.2 kv hkv
    simp only [entryWF, PreprocessedText.merge, List.length_append] at this ⊢
    exact this
  · simp only [PreprocessedText.merge]
    exact hm.1

theorem Built_inv (pt : PreprocessedText) (h : Built pt) : PTInv pt := by
  induction h with
  | empty => exact PTInv_new
  | push pt s p r _ hlen hr ih => exact PTInv_push pt s p r hlen hr ih
  | merge pt other _ _ ih1 ih2 => exact PTInv_merge pt other ih1 ih2

theorem find?_eq_some_of_unique {α : Type} (p : α → Bool) :
    ∀ (l : List α) (a : α), a ∈ l → p a = true →
      (∀ x ∈ l, p x = true → x = a) →
      l.find? p = some a := by
  intro l
  induction l with
  | nil => intro a ha; exact absurd ha (by simp)
  | cons b rest ih =>
    intro a ha hpa huniq
    by_cases hb : p b = true
    · have hba : b = a := huniq b (List.mem_cons_self _ _) hb
      subst hba
      simp [List.find?_cons_of_pos _ hb]
    · rw [List.find?_cons_of_neg _ (by simpa using hb)]
      rcases List.mem_cons.mp ha with h | h
      · subst h; exact absurd hpa hb
      · exact ih a h hpa (fun x hx hpx => huniq x (List.mem_cons_of_mem _ hx) hpx)

theorem contains_unique_of_pairwise (pos : Nat) (kv : Range × Origin) :
    ∀ (l : List (Range × Origin)), l.Pairwise keyBelow → kv ∈ l →
      kv.1.containsPos pos = true →
      ∀ x ∈ l, x.1.containsPos pos = true → x = kv := by
  intro l
  induction l with
  | nil => intro _ hm; cases hm
  | cons a rest ih =>
    intro hp hm hc x hx hcx
    rw [List.pairwise_cons] at hp
    rcases List.mem_cons.mp hm with heq | hmem
    · rcases List.mem_cons.mp hx with hxa | hxr
      · rw [hxa, heq]
      · subst heq
        have hb := hp.1 x hxr
        simp only [keyBelow] at hb
        simp only [Range.containsPos, Bool.and_eq_true, decide_eq_true_eq] at hc hcx
        omega
    · rcases List.mem_cons.mp hx with hxa | hxr
      · subst hxa
        have hb := hp.1 kv hmem
        simp only [keyBelow] at hb
        simp only [Range.containsPos, Bool.and_eq_true, decide_eq_true_eq] at hc hcx
        omega
      · exact ih hp.2 hmem hc x hxr hcx

/-! ## C1 — origin lookup -/

/-- C1: for every driver-built buffer and every position, `origin(pos)`
returns `(origin_path, pos - range.begin + origin_range.begin)` for the
record whose output range contains `pos`, and `none` when no recorded
range contains `pos`; the returned offset always falls inside the
record's origin range because every record has output-range length equal
to origin-range length. -/
theorem C1_origin_lookup (pt : PreprocessedText) (hb : Built pt) (pos : Nat) :
    ((∀ kv ∈ pt.origins, kv.1.containsPos pos = false) →
      pt.origin pos = none) ∧
    (∀ kv ∈ pt.origins, kv.1.containsPos pos = true →
      pt.origin pos =
        some (kv.2.origin_path, pos - kv.1.begin + kv.2.origin_range.begin) ∧
      kv.2.origin_range.begin ≤ pos - kv.1.begin + kv.2.origin_range.begin ∧
      pos - kv.1.begin + kv.2.origin_range.begin < kv.2.origin_range.endp) ∧
    (∀ kv ∈ pt.origins,
      kv.1.endp - kv.1.begin =
        kv.2.origin_range.endp - kv.2.origin_range.begin) := by
  obtain ⟨hwf, hpw⟩ := Built_inv pt hb
  refine ⟨?_, ?_, ?_⟩
  · intro hall
    have hfind : pt.origins.find? (fun kv => kv.1.containsPos pos) = none := by
      rw [List.find?_eq_none]
      intro x hx
      simp [hall x hx]
    simp [PreprocessedText.origin, getContaining, hfind]
  · intro kv hkv hc
    have huniq := contains_unique_of_pairwise pos kv pt.origins hpw hkv hc
    have hfind := find?_eq_some_of_unique (fun kv => kv.1.containsPos pos)
      pt.origins kv hkv hc huniq
    have hwfkv := hwf kv hkv
    simp only [entryWF] at hwfkv
    obtain ⟨h1, h2, h3, h4⟩ := hwfkv
    refine ⟨?_, ?_, ?_⟩
    · simp only [PreprocessedText.origin, getContaining, hfind]
      rw [← h1]
    · simp only [Range.containsPos, Bool.and_eq_true, decide_eq_true_eq] at hc
      omega
    · simp only [Range.containsPos, Bool.and_eq_true, decide_eq_true_eq] at hc
      omega
  · intro kv hkv
    have hwfkv := hwf kv hkv
    simp only [entryWF] at hwfkv
    obtain ⟨h1, h2, h3, h4⟩ := hwfkv
    omega

theorem C1_origin_lookup_witness :
    ptW.origin 1 = some ("w.sv", 6) :=
  (((C1_origin_lookup ptW
      (Built.push PreprocessedText.new "ab".data "w.sv" ⟨5, 7⟩ Built.empty
        (by decide) (by decide)) 1).2.1)
    (⟨⟨0, 2⟩, ⟨⟨0, 2⟩, "w.sv", ⟨5, 7⟩⟩⟩ : Range × Origin)
    (by decide) (by decide)).1

/-! ## C8 — structural invariants of the origin map -/

/-- C8: every buffer built from the empty buffer by push and merge
satisfies the origin-map invariants — each key equals its record's range,
keys are pairwise disjoint and ascending, every key range lies within the
text, and neither push nor merge ever shrinks the text. -/
theorem C8_buffer_invariants (pt : PreprocessedText) (hb : Built pt) :
    (∀ kv ∈ pt.origins, kv.1 = kv.2.range) ∧
    pt.origins.Pairwise keyBelow ∧
    (∀ kv ∈ pt.origins, kv.1.begin ≤ kv.1.endp ∧ kv.1.endp ≤ pt.text.length) ∧
    (∀ (s : List Char) (p : String) (r : Range),
      pt.text.length ≤ (pt.push s p r).text.length) ∧
    (∀ other : PreprocessedText,
      pt.text.length ≤ (pt.merge other).text.length) := by
  obtain ⟨hwf, hpw⟩ := Built_inv pt hb
  refine ⟨?_, hpw, ?_, ?_, ?_⟩
  · intro kv hkv
    exact (hwf kv hkv).1
  · intro kv hkv
    have := hwf kv hkv
    simp only [entryWF] at this
    exact ⟨this.2.1, this.2.2.1⟩
  · intro s p r
    simp [PreprocessedText.push]
  · intro other
    simp [PreprocessedText.merge]

theorem C8_buffer_invariants_witness :
    ptW.text.length ≤ (ptW.push "c".data "w.sv" ⟨0, 1⟩).text.length :=
  (C8_buffer_invariants ptW
    (Built.push PreprocessedText.new "ab".data "w.sv" ⟨5, 7⟩ Built.empty
      (by decide) (by decide))).2.2.2.1 "c".data "w.sv" ⟨0, 1⟩

/-! ## C7 — round-trip identity under no directives -/

theorem insertOrigin_self_mem (k : Range) (v : Origin) :
    ∀ l, (k, v) ∈ insertOrigin l k v := by
  intro l
  induction l with
  | nil => simp [insertOrigin]
  | cons a rest ih =>
    obtain ⟨ak, av⟩ := a
    simp only [insertOrigin]
    by_cases h1 : rangeLt k ak = true
    · rw [if_pos h1]
      exact List.mem_cons_self _ _
    · rw [if_neg h1]
      by_cases h2 : k = ak
      · rw [if_pos h2]
        exact List.mem_cons_self _ _
      · rw [if_neg h2]
        exact List.mem_cons_of_mem _ ih

theorem find?_insertOrigin_skip (P : Range × Origin → Bool) (k : Range)
    (v : Origin) (hP : ∀ w : Origin, P (k, w) = false) :
    ∀ l, (insertOrigin l k v).find? P = l.find? P := by
  intro l
  induction l with
  | nil =>
    simp only [insertOrigin]
    rw [List.find?_cons_of_neg _ (by simp [hP v])]
  | cons a rest ih =>
    obtain ⟨ak, av⟩ := a
    simp only [insertOrigin]
    by_cases h1 : rangeLt k ak = true
    · rw [if_pos h1]
      rw [List.find?_cons_of_neg _ (by simp [hP v])]
    · rw [if_neg h1]
      by_cases h2 : k = ak
      · rw [if_pos h2]
        subst h2
        rw [List.find?_cons_of_neg _ (by simp [hP v]),
          List.find?_cons_of_neg _ (by simp [hP av])]
      · rw [if_neg h2]
        by_cases hpa : P (ak, av) = true
        · rw [List.find?_cons_of_pos _ hpa, List.find?_cons_of_pos _ hpa]
        · rw [List.find?_cons_of_neg _ (by simp [hpa]),
            List.find?_cons_of_neg _ (by simp [hpa])]
          exact ih

theorem origin_push_below (pt : PreprocessedText) (s : List Char) (pth : String)
    (r : Range) (p : Nat) (hp : p < pt.text.length) :
    (pt.push s pth r).origin p = pt.origin p := by
  have hskip : ∀ w : Origin,
      (fun kv : Range × Origin => kv.1.containsPos p)
        (⟨pt.text.length, pt.text.length + s.length⟩, w) = false := by
    intro w
    simp [Range.containsPos]
    omega
  simp only [PreprocessedText.origin, getContaining, PreprocessedText.push]
  rw [find?_insertOrigin_skip _ _ _ hskip]

theorem origin_push_new (pt : PreprocessedText) (s : List Char) (pth : String)
    (r : Range) (p : Nat)
    (hkeys : ∀ kv ∈ pt.origins, kv.1.endp ≤ pt.text.length)
    (hp1 : pt.text.length ≤ p) (hp2 : p < pt.text.length + s.length) :
    (pt.push s pth r).origin p = some (pth, p - pt.text.length + r.begin) := by
  have hmem := insertOrigin_self_mem
    (⟨pt.text.length, pt.text.length + s.length⟩ : Range)
    ⟨⟨pt.text.length, pt.text.length + s.length⟩, pth, r⟩ pt.origins
  have huniq : ∀ x ∈ insertOrigin pt.origins
      (⟨pt.text.length, pt.text.length + s.length⟩ : Range)
      ⟨⟨pt.text.length, pt.text.length + s.length⟩, pth, r⟩,
      (fun kv : Range × Origin => kv.1.containsPos p) x = true →
      x = ((⟨pt.text.length, pt.text.length + s.length⟩ : Range),
        (⟨⟨pt.text.length, pt.text.length + s.length⟩, pth, r⟩ : Origin)) := by
    intro x hx hpx
    rcases mem_insertOrigin _ _ _ _ hx with hold | hnew
    · have := hkeys x hold
      simp [Range.containsPos] at hpx
      omega
    · exact hnew
  have hfind := find?_eq_some_of_unique
    (fun kv : Range × Origin => kv.1.containsPos p) _ _ hmem
    (by simp [Range.containsPos]; omega) huniq
  simp only [PreprocessedText.origin, getContaining, PreprocessedText.push]
  rw [hfind]

theorem locateStr_length (src : List Char) (k len : Nat)
    (h : k + len ≤ src.length) : (locateStr src k len).length = len := by
  simp [locateStr]
  omega

theorem Covering_le : ∀ {k : Nat} {ns : PPNodes} {m : Nat},
    Covering k ns m → k ≤ m := by
  intro k ns m h
  induction h with
  | nil => exact Nat.le_refl _
  | cons k len i m ns hc ih => omega

theorem C7_run (fuel : Nat) (fs : FS) (inc : List String) (src : List Char)
    (path : String) :
    ∀ (ns : PPNodes) (k m : Nat), Covering k ns m → m = src.length →
      ∀ (pt : PreprocessedText) (dfs : Defines),
        pt.text = src.take k →
        (∀ kv ∈ pt.origins, kv.1.endp ≤ k) →
        (∀ p, p < k → pt.origin p = some (path, p)) →
        ∃ pt', (PPNodes.events ns).foldlM
            (stepGo (fun q d => preprocessR fuel fs q d inc) fs inc src path)
            ⟨false, [], dfs, pt⟩ = .ok ⟨false, [], dfs, pt'⟩ ∧
          pt'.text = src ∧
          (∀ p, p < src.length → pt'.origin p = some (path, p)) := by
  intro ns k m hcov
  induction hcov with
  | nil k =>
    intro hm pt dfs h1 h2 h3
    subst hm
    refine ⟨pt, ?_, ?_, ?_⟩
    · simp only [PPNodes.events, List.foldlM_nil]
      rfl
    · rw [h1, List.take_length]
    · exact h3
  | cons k len i m ns hcov ih =>
    intro hm pt dfs h1 h2 h3
    subst hm
    have hb : k + len ≤ src.length := Covering_le hcov
    have htl : pt.text.length = k := by
      rw [h1, List.length_take]
      omega
    have hsl : (locateStr src k len).length = len := locateStr_length src k len hb
    have hstep1 : stepGo (fun q d => preprocessR fuel fs q d inc) fs inc src path
        ⟨false, [], dfs, pt⟩ (.enter (.sourceText i k len)) =
        .ok ⟨false, [], dfs, pt.push (locateStr src k len) path ⟨k, k + len⟩⟩ := by
      simp [stepGo, hb]
    have hstep2 : stepGo (fun q d => preprocessR fuel fs q d inc) fs inc src path
        ⟨false, [], dfs, pt.push (locateStr src k len) path ⟨k, k + len⟩⟩
        (.leave (.sourceText i k len)) =
        .ok ⟨false, [], dfs, pt.push (locateStr src k len) path ⟨k, k + len⟩⟩ := by
      simp [stepGo]
    have hpt1text : (pt.push (locateStr src k len) path ⟨k, k + len⟩).text =
        src.take (k + len) := by
      simp only [PreprocessedText.push]
      rw [h1, List.take_add]
      simp [locateStr]
    have hpt1keys : ∀ kv ∈ (pt.push (locateStr src k len) path
        ⟨k, k + len⟩).origins, kv.1.endp ≤ k + len := by
      intro kv hkv
      simp only [PreprocessedText.push] at hkv
      rcases mem_insertOrigin _ _ _ _ hkv with hold | hnew
      · have := h2 kv hold
        omega
      · subst hnew
        simp [htl, hsl]
    have hpt1look : ∀ p, p < k + len →
        (pt.push (locateStr src k len) path ⟨k, k + len⟩).origin p =
          some (path, p) := by
      intro p hp
      by_cases hpk : p < k
      · rw [origin_push_below pt _ path _ p (by omega)]
        exact h3 p hpk
      · rw [origin_push_new pt _ path _ p (by rw [htl]; exact h2)
          (by omega) (by rw [htl, hsl]; omega)]
        rw [htl]
        have : p - k + k = p := by omega
        rw [this]
    obtain ⟨pt', hrun, htext', horig'⟩ := ih rfl
      (pt.push (locateStr src k len) path ⟨k, k + len⟩) dfs
      hpt1text hpt1keys hpt1look
    refine ⟨pt', ?_, htext', horig'⟩
    simp only [PPNodes.events, PPNode.events, List.cons_append, List.nil_append,
      List.foldlM_cons, hstep1, ok_bind, hstep2]
    exact hrun

/-- C7: a source file whose directive tree consists only of SourceText
leaves covering the source preprocesses, with any predefines and search
paths, to a buffer whose text equals the source and whose origin lookup
is the identity mapping into that file. -/
theorem C7_no_directives (fuel : Nat) (fs : FS) (inc : List String)
    (path : String) (src : List Char) (tree : PPNodes)
    (pd : List (String × Option PPNode))
    (hread : fs.read path = some ⟨src, some tree⟩)
    (hcov : Covering 0 tree src.length) :
    ∃ pt, preprocessR (fuel + 1) fs path pd inc = .ok pt ∧
      pt.text = src ∧
      ∀ p, p < src.length → pt.origin p = some (path, p) := by
  obtain ⟨pt', hrun, htext, horig⟩ := C7_run fuel fs inc src path tree 0
    src.length hcov rfl PreprocessedText.new (initDefines pd)
    (by simp [PreprocessedText.new])
    (by intro kv hkv; simp [PreprocessedText.new] at hkv)
    (by intro p hp; exact absurd hp (by omega))
  refine ⟨pt', ?_, htext, horig⟩
  simp only [preprocessR, hread]
  rw [hrun]

theorem C7_no_directives_witness :
    ∃ pt, preprocessR 1 fsC7 "p.sv" [] [] = .ok pt ∧
      pt.text = "wire w;".data ∧
      ∀ p, p < "wire w;".data.length → pt.origin p = some ("p.sv", p) :=
  C7_no_directives 0 fsC7 [] "p.sv" "wire w;".data
    (.cons (.sourceText 0 0 4) (.cons (.sourceText 1 4 3) .nil)) []
    rfl (by
      refine Covering.cons 0 4 0 _ _ ?_
      refine Covering.cons 4 3 1 _ _ ?_
      exact Covering.nil 7)
